import Mathlib

/-!
Verification of the two Zelbet gadgets of `src/constraint_system/zelbet.rs`
(`decomposition_gadget` and `s_box_and_constraints`) against their
natural-language specification.

Modelling conventions (shallow embedding):
* A `BlsScalar` is represented by its canonical integer value in `[0, p)`,
  where `p` is the BLS12-381 scalar-field modulus.  The Montgomery
  ("fast-multiplication") transform used by the backend is a bijection applied
  only at the boundary, so `reduce()` is the identity here and
  `BlsScalar::from_raw` reduces an integer mod `p`.
* A `Variable` is an index into the composer's assignment list.
* The external constant tables (`DECOMPOSITION_S_I`, `INVERSES_S_I`,
  `SBOX_U256`, `BLS_SCALAR_REAL`) live outside the provided sources; they are
  passed to the gadget models as explicit parameters, with their spec-stated
  properties appearing as hypotheses of the theorems.
-/

/-- The BLS12-381 scalar field modulus `p` (the modulus of `dusk_bls12_381::BlsScalar`). -/
def p : ℕ := 52435875175126190479447740508185965837690552500527637822603658699938581184513

/-- A wire handle: an index into the composer's assignment list. -/
abbrev Var := ℕ

/-- Gates that the constraint-system backend can record.  `mulGate` is the
fused multiply-add gate produced by `big_mul`, `constantGate` the
equality-to-constant gate produced by `constrain_to_constant`, `lookupGate`
the 4-wire lookup-argument gate produced by `plookup_gate`, and `equalGate` a
wire-to-wire equality gate (available in the backend but, as proved below,
never emitted by the decomposition gadget). -/
inductive Gate where
  | mulGate (qm : ℕ) (a b : Var) (q4 : ℕ) (d : Var) (qc pic : ℕ) (out : Var)
  | constantGate (a : Var) (c : ℕ) (pic : ℕ)
  | lookupGate (a b c d : Var) (pic : ℕ)
  | equalGate (a b : Var)
deriving DecidableEq

/-- Recognizer for the fused multiply-add gate. -/
def Gate.isMul : Gate → Bool
  | .mulGate _ _ _ _ _ _ _ _ => true
  | _ => false

/-- Recognizer for the wire-to-wire equality gate. -/
def Gate.isEqual : Gate → Bool
  | .equalGate _ _ => true
  | _ => false

/-- Model of `StandardComposer`: the wire-assignment list (canonical values),
the distinguished zero wire `zero_var`, and the list of gates added so far. -/
structure Composer where
  vars : List ℕ
  zero_var : Var
  gates : List Gate
deriving DecidableEq

/-- The canonical value currently assigned to a wire (`self.variables[&v]`). -/
def Composer.val (cs : Composer) (v : Var) : ℕ := cs.vars.getD v 0

/-- Model of `StandardComposer::add_input`: allocate a fresh wire holding the
given value and return its handle. -/
def add_input (cs : Composer) (a : ℕ) : Composer × Var :=
  ({ cs with vars := cs.vars ++ [a] }, cs.vars.length)

/-- Allocate one wire per value in the list, in order. -/
def addInputs (cs : Composer) : List ℕ → Composer × List Var
  | [] => (cs, [])
  | a :: rest =>
    let s := add_input cs a
    let out := addInputs s.1 rest
    (out.1, s.2 :: out.2)

/-- Modelled from the spec: the backend's fused multiply-add gate
(`StandardComposer::big_mul`, not part of the provided sources).  It computes
`qm·a·b + q4·d + qc + pic` in the field, allocates a wire holding the result,
records a `mulGate`, and returns the new wire. -/
def big_mul (cs : Composer) (qm : ℕ) (a b : Var) (q4d : Option (ℕ × Var))
    (qc pic : ℕ) : Composer × Var :=
  let q4 := (q4d.map Prod.fst).getD 0
  let d := (q4d.map Prod.snd).getD cs.zero_var
  let value := (qm * cs.val a * cs.val b + q4 * cs.val d + qc + pic) % p
  let s := add_input cs value
  ({ s.1 with gates := s.1.gates ++ [Gate.mulGate qm a b q4 d qc pic s.2] }, s.2)

/-- Modelled from the spec: the backend's equality-to-constant gate
(`StandardComposer::constrain_to_constant`, not part of the provided
sources). -/
def constrain_to_constant (cs : Composer) (a : Var) (c : ℕ) (pic : ℕ) : Composer :=
  { cs with gates := cs.gates ++ [Gate.constantGate a c pic] }

/-- Modelled from the spec: the backend's 4-wire lookup-argument gate
(`StandardComposer::plookup_gate`, not part of the provided sources). -/
def plookup_gate (cs : Composer) (a b c : Var) (d : Option Var) (pic : ℕ) : Composer :=
  { cs with gates := cs.gates ++ [Gate.lookupGate a b c (d.getD cs.zero_var) pic] }

/-- One step of the decomposition witness loop: from the intermediate value
`v`, subtract the remainder `v % s` and multiply by the precomputed modular
inverse `i` in the field (`BlsScalar((intermediate - remainder).0) *
INVERSES_S_I[k]` followed by reading the raw limbs back as an integer). -/
def decompStep (s i v : ℕ) : ℕ := ((v - v % s) * i) % p

/-- The witness loop of `decomposition_gadget` over the list of
(radix, inverse) pairs: returns the 26 remainders (in order
`r₀, …, r₂₅`) together with the final undivided intermediate. -/
def decompPairs : List (ℕ × ℕ) → ℕ → List ℕ × ℕ
  | [], v => ([], v)
  | si :: rest, v =>
    let out := decompPairs rest (decompStep si.1 si.2 v)
    (v % si.1 :: out.1, out.2)

/-- The (radix, inverse) pairs `(DECOMPOSITION_S_I[k], INVERSES_S_I[k])` for
`k = 0, …, 25`, exactly the entries read by the gadget's witness loop. -/
def siPairs (S I : Fin 26 → ℕ) : List (ℕ × ℕ) := List.ofFn fun k => (S k, I k)

/-- The Horner accumulator chain of the in-circuit recomposition, threading
the composer: each step is `big_mul(1, acc, s_wire, Some((1, digit_wire)), 0, 0)`. -/
def hornerGates : Composer → Var → List (Var × Var) → Composer × Var
  | cs, acc, [] => (cs, acc)
  | cs, acc, pr :: rest =>
    let s := big_mul cs 1 acc pr.1 (some (1, pr.2)) 0 0
    hornerGates s.1 s.2 rest

/-- Model of `StandardComposer::decomposition_gadget` from
`src/constraint_system/zelbet.rs`.  `S`/`I` stand for the external constant
arrays `DECOMPOSITION_S_I`/`INVERSES_S_I` (only indices `0..25` are read by
the source).  Returns the updated composer and the 27 nibble wires. -/
def decomposition_gadget (cs : Composer) (S I : Fin 26 → ℕ) (x : Var)
    (s_i_decomposition : Fin 27 → Var) : Composer × List Var :=
  let reduced_input := cs.val x
  let dp := decompPairs (siPairs S I) reduced_input
  let digitVals := dp.1 ++ [dp.2]
  let alloc := addInputs cs (digitVals.map (· % p))
  let nibbles := alloc.2
  let swires := List.ofFn fun k : Fin 26 => s_i_decomposition k.castSucc
  let pairs := (swires.zip (nibbles.take 26)).reverse
  let hg := hornerGates alloc.1 (nibbles.getD 26 0) pairs
  let cs2 := constrain_to_constant hg.1 hg.2 (cs.val x) 0
  (cs2, nibbles)

/-- The low 64-bit limb `value.0[0]` of a reduced scalar, on which every size
comparison of `s_box_and_constraints` operates. -/
def lowLimb (v : ℕ) : ℕ := v % 2 ^ 64

/-- The index `27 - counter` used to read `BLS_SCALAR_REAL` in
`s_box_and_constraints` (natural-number, i.e. truncated, subtraction). -/
def bsrIndex (counter : ℕ) : ℕ := 27 - counter

/-- Model of `StandardComposer::s_box_and_constraints` from
`src/constraint_system/zelbet.rs`.  `SBOX` stands for the external table
`SBOX_U256` (entry `n` holding the substituted value as a raw integer) and
`BSR` for `BLS_SCALAR_REAL` (entry `n` holding the modulus digit as a raw
integer; the source reads its low limb `.0[0]`).  `counter` models the `u64`
argument.  Returns the updated composer and `(y_i, c_i, conditional, z_i)`. -/
def s_box_and_constraints (cs : Composer) (SBOX BSR : ℕ → ℕ) (input : Var)
    (counter : ℕ) (conditional : Bool) (one two : Var) :
    Composer × Var × Var × Bool × Var :=
  let value := cs.val input
  let res :=
    if lowLimb value < 659 then
      let a := add_input cs (SBOX (lowLimb value) % p)
      (a.1, a.2, one, true, cs.zero_var)
    else
      if lowLimb value > lowLimb (BSR (bsrIndex counter)) then
        (cs, input, two, true, one)
      else if lowLimb value = lowLimb (BSR (bsrIndex counter)) then
        if conditional then (cs, input, two, true, one)
        else (cs, input, cs.zero_var, conditional, one)
      else (cs, input, one, conditional, one)
  let scaled := add_input res.1 ((counter * res.1.val res.2.2.2.2) % p)
  let cs2 := plookup_gate scaled.1 input scaled.2 res.2.1 (some res.2.2.1) 0
  (cs2, res.2.1, res.2.2.1, res.2.2.2.1, res.2.2.2.2)

/-- Modelled from the spec: the caller of the digit-substitution gadget
invokes it once per digit in most-significant-to-least-significant order,
threading the returned `conditional` flag into the next call.  Each list
entry is an `(input wire, counter)` pair. -/
def sBoxChain (SBOX BSR : ℕ → ℕ) (one two : Var) :
    Composer → Bool → List (Var × ℕ) → Composer × Bool
  | cs, cond, [] => (cs, cond)
  | cs, cond, step :: rest =>
    let r := s_box_and_constraints cs SBOX BSR step.1 step.2 cond one two
    sBoxChain SBOX BSR one two r.1 r.2.2.2.1 rest

/-- Plain-integer Horner recomposition, consuming `(radix, digit)` pairs from
the most significant end, exactly in the order of the gadget's fused
multiply-add gates: `acc ← acc·s + d`. -/
def hornerNat : List (ℕ × ℕ) → ℕ → ℕ
  | [], a => a
  | pr :: rest, a => hornerNat rest (a * pr.1 + pr.2)

/-- The same Horner chain with each step reduced mod `p`, as the in-circuit
gates compute it. -/
def hornerFold : List (ℕ × ℕ) → ℕ → ℕ
  | [], a => a
  | pr :: rest, a => hornerFold rest ((a * pr.1 + pr.2) % p)

/-- Least-significant-first nested recomposition: `recomposeAux
[(s₁,d₀), …, (s₂₆,d₂₅)] top = d₀ + s₁·(d₁ + s₂·(… + s₂₆·top))`. -/
def recomposeAux : List (ℕ × ℕ) → ℕ → ℕ
  | [], top => top
  | pr :: rest, top => pr.2 + pr.1 * recomposeAux rest top

/-- The recomposition the claim under review attributes to the gadget: digit
`D[0]` most significant (weight `S₁·…·S₂₆`), `D[26]` least significant
(weight 1). -/
def claimRecompose (S : Fin 26 → ℕ) (D : List ℕ) : ℕ :=
  hornerNat ((List.ofFn S).zip (D.drop 1)) (D.getD 0 0)

/-! ### Plumbing lemmas about the composer model -/

theorem add_input_vars (cs : Composer) (a : ℕ) :
    (add_input cs a).1.vars = cs.vars ++ [a] := rfl

theorem add_input_val_old (cs : Composer) (a : ℕ) (v : Var) (h : v < cs.vars.length) :
    (add_input cs a).1.val v = cs.val v := by
  simp only [Composer.val, add_input]
  exact List.getD_append _ _ _ _ h

theorem add_input_val_new (cs : Composer) (a : ℕ) :
    (add_input cs a).1.val (add_input cs a).2 = a := by
  simp only [Composer.val, add_input]
  rw [List.getD_append_right _ _ _ _ (Nat.le_refl _)]
  simp

theorem addInputs_vars (cs : Composer) (ds : List ℕ) :
    (addInputs cs ds).1.vars = cs.vars ++ ds := by
  induction ds generalizing cs with
  | nil => simp [addInputs]
  | cons a rest ih => simp [addInputs, ih, add_input]

theorem addInputs_zero (cs : Composer) (ds : List ℕ) :
    (addInputs cs ds).1.zero_var = cs.zero_var := by
  induction ds generalizing cs with
  | nil => rfl
  | cons a rest ih => simp [addInputs, ih, add_input]

theorem addInputs_gates (cs : Composer) (ds : List ℕ) :
    (addInputs cs ds).1.gates = cs.gates := by
  induction ds generalizing cs with
  | nil => rfl
  | cons a rest ih => simp [addInputs, ih, add_input]

theorem addInputs_outs_length (cs : Composer) (ds : List ℕ) :
    (addInputs cs ds).2.length = ds.length := by
  induction ds generalizing cs with
  | nil => rfl
  | cons a rest ih => simp [addInputs, ih]

theorem addInputs_outs_lt (cs : Composer) (ds : List ℕ) :
    ∀ v ∈ (addInputs cs ds).2, v < (addInputs cs ds).1.vars.length := by
  induction ds generalizing cs with
  | nil => simp [addInputs]
  | cons a rest ih =>
    intro v hv
    simp only [addInputs, List.mem_cons] at hv
    rcases hv with h | h
    · subst h
      rw [addInputs_vars]
      simp [add_input]
    · exact ih (add_input cs a).1 v h

theorem addInputs_val_old (cs : Composer) (ds : List ℕ) (v : Var)
    (h : v < cs.vars.length) : (addInputs cs ds).1.val v = cs.val v := by
  simp only [Composer.val, addInputs_vars]
  exact List.getD_append _ _ _ _ h

theorem addInputs_map_val (cs : Composer) (ds : List ℕ) :
    (addInputs cs ds).2.map (addInputs cs ds).1.val = ds := by
  induction ds generalizing cs with
  | nil => rfl
  | cons a rest ih =>
    simp only [addInputs, List.map_cons]
    have hlt : (add_input cs a).2 < (add_input cs a).1.vars.length := by
      simp [add_input]
    rw [addInputs_val_old _ _ _ hlt, add_input_val_new cs a, ih (add_input cs a).1]

theorem big_mul_vars (cs : Composer) (qm : ℕ) (a b : Var) (q4d : Option (ℕ × Var))
    (qc pic : ℕ) :
    (big_mul cs qm a b q4d qc pic).1.vars =
      cs.vars ++ [(qm * cs.val a * cs.val b +
        (q4d.map Prod.fst).getD 0 * cs.val ((q4d.map Prod.snd).getD cs.zero_var) +
        qc + pic) % p] := rfl

theorem big_mul_zero (cs : Composer) (qm : ℕ) (a b : Var) (q4d : Option (ℕ × Var))
    (qc pic : ℕ) : (big_mul cs qm a b q4d qc pic).1.zero_var = cs.zero_var := rfl

theorem big_mul_gates (cs : Composer) (qm : ℕ) (a b : Var) (q4d : Option (ℕ × Var))
    (qc pic : ℕ) :
    (big_mul cs qm a b q4d qc pic).1.gates = cs.gates ++
      [Gate.mulGate qm a b ((q4d.map Prod.fst).getD 0) ((q4d.map Prod.snd).getD cs.zero_var)
        qc pic (big_mul cs qm a b q4d qc pic).2] := rfl

theorem big_mul_val_old (cs : Composer) (qm : ℕ) (a b : Var) (q4d : Option (ℕ × Var))
    (qc pic : ℕ) (v : Var) (h : v < cs.vars.length) :
    (big_mul cs qm a b q4d qc pic).1.val v = cs.val v := by
  simp only [Composer.val, big_mul_vars]
  exact List.getD_append _ _ _ _ h

theorem big_mul_val_out (cs : Composer) (qm : ℕ) (a b : Var) (q4 : ℕ) (d : Var)
    (qc pic : ℕ) :
    (big_mul cs qm a b (some (q4, d)) qc pic).1.val (big_mul cs qm a b (some (q4, d)) qc pic).2 =
      (qm * cs.val a * cs.val b + q4 * cs.val d + qc + pic) % p := by
  simp only [big_mul]
  exact add_input_val_new cs _

theorem big_mul_out_lt (cs : Composer) (qm : ℕ) (a b : Var) (q4d : Option (ℕ × Var))
    (qc pic : ℕ) :
    (big_mul cs qm a b q4d qc pic).2 < (big_mul cs qm a b q4d qc pic).1.vars.length := by
  simp [big_mul, add_input]

theorem big_mul_vars_le (cs : Composer) (qm : ℕ) (a b : Var) (q4d : Option (ℕ × Var))
    (qc pic : ℕ) :
    cs.vars.length ≤ (big_mul cs qm a b q4d qc pic).1.vars.length := by
  simp [big_mul_vars]

theorem hornerGates_zero (prs : List (Var × Var)) (cs : Composer) (acc : Var) :
    (hornerGates cs acc prs).1.zero_var = cs.zero_var := by
  induction prs generalizing cs acc with
  | nil => rfl
  | cons pr rest ih =>
    simp only [hornerGates]
    rw [ih, big_mul_zero]

theorem hornerGates_vars_le (prs : List (Var × Var)) (cs : Composer) (acc : Var) :
    cs.vars.length ≤ (hornerGates cs acc prs).1.vars.length := by
  induction prs generalizing cs acc with
  | nil => exact Nat.le_refl _
  | cons pr rest ih =>
    simp only [hornerGates]
    exact Nat.le_trans (big_mul_vars_le cs 1 acc pr.1 (some (1, pr.2)) 0 0) (ih _ _)

theorem hornerGates_val_old (prs : List (Var × Var)) (cs : Composer) (acc : Var) (v : Var)
    (h : v < cs.vars.length) : (hornerGates cs acc prs).1.val v = cs.val v := by
  induction prs generalizing cs acc with
  | nil => rfl
  | cons pr rest ih =>
    simp only [hornerGates]
    rw [ih _ _ (Nat.lt_of_lt_of_le h (big_mul_vars_le cs 1 acc pr.1 (some (1, pr.2)) 0 0))]
    exact big_mul_val_old cs 1 acc pr.1 (some (1, pr.2)) 0 0 v h

theorem hornerGates_gates (prs : List (Var × Var)) (cs : Composer) (acc : Var) :
    ∃ gs, (hornerGates cs acc prs).1.gates = cs.gates ++ gs ∧
      ∀ g ∈ gs, g.isMul = true := by
  induction prs generalizing cs acc with
  | nil => exact ⟨[], by simp [hornerGates]⟩
  | cons pr rest ih =>
    simp only [hornerGates]
    obtain ⟨gs, hgs, hmul⟩ :=
      ih (big_mul cs 1 acc pr.1 (some (1, pr.2)) 0 0).1 (big_mul cs 1 acc pr.1 (some (1, pr.2)) 0 0).2
    refine ⟨[Gate.mulGate 1 acc pr.1 1 pr.2 0 0
      (big_mul cs 1 acc pr.1 (some (1, pr.2)) 0 0).2] ++ gs, ?_, ?_⟩
    · rw [hgs, big_mul_gates]
      simp
    · intro g hg
      rcases List.mem_append.1 hg with h | h
      · rcases List.mem_singleton.1 h with rfl
        rfl
      · exact hmul g h

theorem hornerGates_val_acc (prs : List (Var × Var)) (cs : Composer) (acc : Var)
    (h : ∀ pr ∈ prs, pr.1 < cs.vars.length ∧ pr.2 < cs.vars.length) :
    (hornerGates cs acc prs).1.val (hornerGates cs acc prs).2 =
      hornerFold (prs.map fun pr => (cs.val pr.1, cs.val pr.2)) (cs.val acc) := by
  induction prs generalizing cs acc with
  | nil => rfl
  | cons pr rest ih =>
    simp only [hornerGates, List.map_cons, hornerFold]
    have hpr := h pr (List.mem_cons_self pr rest)
    have hrest : ∀ q ∈ rest, q.1 < (big_mul cs 1 acc pr.1 (some (1, pr.2)) 0 0).1.vars.length ∧
        q.2 < (big_mul cs 1 acc pr.1 (some (1, pr.2)) 0 0).1.vars.length := by
      intro q hq
      have hq2 := h q (List.mem_cons_of_mem pr hq)
      exact ⟨Nat.lt_of_lt_of_le hq2.1 (big_mul_vars_le _ _ _ _ _ _ _),
        Nat.lt_of_lt_of_le hq2.2 (big_mul_vars_le _ _ _ _ _ _ _)⟩
    rw [ih _ _ hrest]
    have hmap : rest.map (fun q => ((big_mul cs 1 acc pr.1 (some (1, pr.2)) 0 0).1.val q.1,
        (big_mul cs 1 acc pr.1 (some (1, pr.2)) 0 0).1.val q.2)) =
        rest.map fun q => (cs.val q.1, cs.val q.2) := by
      apply List.map_congr_left
      intro q hq
      have hq2 := h q (List.mem_cons_of_mem pr hq)
      rw [big_mul_val_old _ _ _ _ _ _ _ _ hq2.1, big_mul_val_old _ _ _ _ _ _ _ _ hq2.2]
    rw [hmap, big_mul_val_out]
    ring_nf

/-! ### Arithmetic lemmas about the Horner chains -/

theorem hornerNat_append (M : List (ℕ × ℕ)) (s d a : ℕ) :
    hornerNat (M ++ [(s, d)]) a = hornerNat M a * s + d := by
  induction M generalizing a with
  | nil => rfl
  | cons pr rest ih =>
    simp only [List.cons_append, hornerNat]
    exact ih _

theorem hornerNat_mod_congr (l : List (ℕ × ℕ)) (a b : ℕ) (h : a % p = b % p) :
    hornerNat l a % p = hornerNat l b % p := by
  induction l generalizing a b with
  | nil => exact h
  | cons pr rest ih =>
    simp only [hornerNat]
    apply ih
    conv_lhs => rw [Nat.add_mod, Nat.mul_mod, h, ← Nat.mul_mod, ← Nat.add_mod]

theorem hornerFold_eq (l : List (ℕ × ℕ)) (a : ℕ) (ha : a < p) :
    hornerFold l a = hornerNat l a % p := by
  induction l generalizing a with
  | nil => exact (Nat.mod_eq_of_lt ha).symm
  | cons pr rest ih =>
    simp only [hornerFold, hornerNat]
    rw [ih _ (Nat.mod_lt _ (by decide))]
    exact hornerNat_mod_congr rest _ _ (Nat.mod_mod _ _)

theorem hornerNat_reverse (L : List (ℕ × ℕ)) (top : ℕ) :
    hornerNat L.reverse top = recomposeAux L top := by
  induction L with
  | nil => rfl
  | cons pr rest ih =>
    simp only [List.reverse_cons, recomposeAux]
    rcases pr with ⟨s, d⟩
    rw [hornerNat_append, ih, Nat.add_comm, Nat.mul_comm]

theorem hornerNat_zero_digits (ss : List ℕ) (a : ℕ) :
    hornerNat (ss.map fun s => (s, 0)) a = a * ss.prod := by
  induction ss generalizing a with
  | nil => simp [hornerNat]
  | cons s rest ih =>
    simp only [List.map_cons, hornerNat, List.prod_cons, ih]
    ring

theorem zip_replicate_zero (ss : List ℕ) :
    ss.zip (List.replicate ss.length 0) = ss.map fun s => (s, 0) := by
  induction ss with
  | nil => rfl
  | cons s rest ih => simp only [List.length_cons, List.replicate, List.zip_cons_cons,
      List.map_cons, ih]

/-! ### Arithmetic lemmas about the decomposition witness loop -/

theorem decompStep_div (s i v : ℕ) (hv : v < p) (hs : 0 < s) (hi : (s * i) % p = 1) :
    decompStep s i v = v / s := by
  have hsub : v - v % s = s * (v / s) := by
    have := Nat.mod_add_div v s
    omega
  have hq : v / s < p := Nat.lt_of_le_of_lt (Nat.div_le_self v s) hv
  calc decompStep s i v = (v / s * (s * i)) % p := by
        simp only [decompStep, hsub]
        ring_nf
      _ = (v / s % p * ((s * i) % p)) % p := by rw [← Nat.mul_mod]
      _ = v / s := by rw [hi, Nat.mul_one, Nat.mod_mod, Nat.mod_eq_of_lt hq]

theorem decompPairs_fst_length (si : List (ℕ × ℕ)) (v : ℕ) :
    (decompPairs si v).1.length = si.length := by
  induction si generalizing v with
  | nil => rfl
  | cons pr rest ih => simp [decompPairs, ih]

theorem decompPairs_roundtrip (si : List (ℕ × ℕ)) (v : ℕ) (hv : v < p)
    (h : ∀ pr ∈ si, 0 < pr.1 ∧ (pr.1 * pr.2) % p = 1) :
    recomposeAux ((si.map Prod.fst).zip (decompPairs si v).1) (decompPairs si v).2 = v := by
  induction si generalizing v with
  | nil => exact Nat.mod_eq_of_lt hv ▸ rfl
  | cons pr rest ih =>
    have hpr := h pr (List.mem_cons_self pr rest)
    have hstep : decompStep pr.1 pr.2 v = v / pr.1 := decompStep_div _ _ _ hv hpr.1 hpr.2
    have hq : v / pr.1 < p := Nat.lt_of_le_of_lt (Nat.div_le_self v pr.1) hv
    have ih2 := ih _ hq (fun q hq2 => h q (List.mem_cons_of_mem pr hq2))
    simp only [decompPairs, List.map_cons, List.zip_cons_cons, recomposeAux, hstep]
    simp only [List.zip] at ih2
    rw [ih2]
    have := Nat.mod_add_div v pr.1
    omega

theorem decompPairs_fst_lt (si : List (ℕ × ℕ)) (v : ℕ) (h : ∀ pr ∈ si, 0 < pr.1) :
    ∀ k, k < si.length → (decompPairs si v).1.getD k 0 < (si.getD k (1, 0)).1 := by
  induction si generalizing v with
  | nil => intro k hk; simp at hk
  | cons pr rest ih =>
    intro k hk
    match k with
    | 0 =>
      simp only [decompPairs, List.getD_cons_zero]
      exact Nat.mod_lt v (h pr (List.mem_cons_self pr rest))
    | k + 1 =>
      simp only [decompPairs, List.getD_cons_succ]
      exact ih _ (fun q hq => h q (List.mem_cons_of_mem pr hq)) k (by simpa using hk)

theorem decompPairs_snd_div (si : List (ℕ × ℕ)) (v : ℕ) (hv : v < p)
    (h : ∀ pr ∈ si, 0 < pr.1 ∧ (pr.1 * pr.2) % p = 1) :
    (decompPairs si v).2 = v / (si.map Prod.fst).prod := by
  induction si generalizing v with
  | nil => simp [decompPairs]
  | cons pr rest ih =>
    have hpr := h pr (List.mem_cons_self pr rest)
    have hstep : decompStep pr.1 pr.2 v = v / pr.1 := decompStep_div _ _ _ hv hpr.1 hpr.2
    have hq : v / pr.1 < p := Nat.lt_of_le_of_lt (Nat.div_le_self v pr.1) hv
    simp only [decompPairs, hstep, List.map_cons, List.prod_cons]
    rw [ih _ hq (fun q hq2 => h q (List.mem_cons_of_mem pr hq2))]
    exact Nat.div_div_eq_div_mul v pr.1 _

theorem decompPairs_snd_lt (si : List (ℕ × ℕ)) (v : ℕ) (hv : v < p) :
    (decompPairs si v).2 < p := by
  induction si generalizing v with
  | nil => exact hv
  | cons pr rest ih =>
    simp only [decompPairs]
    exact ih _ (Nat.mod_lt _ (by decide))

theorem decompPairs_fst_mem_lt (si : List (ℕ × ℕ)) (v : ℕ)
    (h : ∀ pr ∈ si, 0 < pr.1 ∧ pr.1 < p) :
    ∀ d ∈ (decompPairs si v).1, d < p := by
  induction si generalizing v with
  | nil => simp [decompPairs]
  | cons pr rest ih =>
    intro d hd
    simp only [decompPairs, List.mem_cons] at hd
    have hpr := h pr (List.mem_cons_self pr rest)
    rcases hd with rfl | hd
    · exact Nat.lt_trans (Nat.mod_lt v hpr.1) hpr.2
    · exact ih _ (fun q hq => h q (List.mem_cons_of_mem pr hq)) d hd

theorem decompPairs_zero (si : List (ℕ × ℕ)) :
    decompPairs si 0 = (List.replicate si.length 0, 0) := by
  induction si with
  | nil => rfl
  | cons pr rest ih =>
    simp only [decompPairs, decompStep, Nat.zero_mod, Nat.zero_sub, Nat.zero_mul,
      Nat.sub_zero, ih, List.length_cons, List.replicate]

/-! ### Structural lemmas about `decomposition_gadget` -/

theorem siPairs_length (S I : Fin 26 → ℕ) : (siPairs S I).length = 26 := by
  simp [siPairs]

theorem siPairs_map_fst (S I : Fin 26 → ℕ) : (siPairs S I).map Prod.fst = List.ofFn S := by
  simp [siPairs, List.map_ofFn]

theorem siPairs_cond (S I : Fin 26 → ℕ) (hS0 : ∀ k, 0 < S k)
    (hI : ∀ k, (S k * I k) % p = 1) :
    ∀ pr ∈ siPairs S I, 0 < pr.1 ∧ (pr.1 * pr.2) % p = 1 := by
  intro pr hpr
  obtain ⟨k, hk⟩ := (List.mem_ofFn _ _).1 hpr
  rw [← hk]
  exact ⟨hS0 k, hI k⟩

theorem siPairs_cond_lt (S I : Fin 26 → ℕ) (hS0 : ∀ k, 0 < S k)
    (hSp : ∀ k, S k < p) : ∀ pr ∈ siPairs S I, 0 < pr.1 ∧ pr.1 < p := by
  intro pr hpr
  obtain ⟨k, hk⟩ := (List.mem_ofFn _ _).1 hpr
  rw [← hk]
  exact ⟨hS0 k, hSp k⟩

theorem dg_nibbles_length (cs : Composer) (S I : Fin 26 → ℕ) (x : Var) (sw : Fin 27 → Var) :
    (decomposition_gadget cs S I x sw).2.length = 27 := by
  simp only [decomposition_gadget]
  rw [addInputs_outs_length]
  simp [decompPairs_fst_length, siPairs_length]

theorem map_val_through (cs : Composer) (ds : List ℕ) (acc a : Var)
    (prs : List (Var × Var)) (c pic : ℕ) :
    (addInputs cs ds).2.map (constrain_to_constant
      (hornerGates (addInputs cs ds).1 acc prs).1 a c pic).val = ds := by
  have hstep : ∀ v ∈ (addInputs cs ds).2,
      (hornerGates (addInputs cs ds).1 acc prs).1.val v = (addInputs cs ds).1.val v :=
    fun v hv => hornerGates_val_old _ _ _ _ (addInputs_outs_lt cs ds v hv)
  calc (addInputs cs ds).2.map (constrain_to_constant
        (hornerGates (addInputs cs ds).1 acc prs).1 a c pic).val
      = (addInputs cs ds).2.map (addInputs cs ds).1.val := List.map_congr_left hstep
    _ = ds := addInputs_map_val cs ds

theorem dg_map_val (cs : Composer) (S I : Fin 26 → ℕ) (x : Var) (sw : Fin 27 → Var) :
    (decomposition_gadget cs S I x sw).2.map (decomposition_gadget cs S I x sw).1.val =
      ((decompPairs (siPairs S I) (cs.val x)).1 ++
        [(decompPairs (siPairs S I) (cs.val x)).2]).map (· % p) := by
  simp only [decomposition_gadget]
  exact map_val_through _ _ _ _ _ _ _

theorem dg_digits_eq (cs : Composer) (S I : Fin 26 → ℕ) (x : Var) (sw : Fin 27 → Var)
    (hx : cs.val x < p) (hS0 : ∀ k, 0 < S k) (hSp : ∀ k, S k < p) :
    (decomposition_gadget cs S I x sw).2.map (decomposition_gadget cs S I x sw).1.val =
      (decompPairs (siPairs S I) (cs.val x)).1 ++
        [(decompPairs (siPairs S I) (cs.val x)).2] := by
  rw [dg_map_val]
  have hmem : ∀ d ∈ (decompPairs (siPairs S I) (cs.val x)).1 ++
      [(decompPairs (siPairs S I) (cs.val x)).2], d % p = d := by
    intro d hd
    rcases List.mem_append.1 hd with h | h
    · exact Nat.mod_eq_of_lt
        (decompPairs_fst_mem_lt _ _ (siPairs_cond_lt S I hS0 hSp) d h)
    · rcases List.mem_singleton.1 h with rfl
      exact Nat.mod_eq_of_lt (decompPairs_snd_lt _ _ hx)
  rw [List.map_congr_left hmem]
  simp

theorem val_getD_map (f : Var → ℕ) (l : List Var) (n : ℕ) (h : n < l.length) :
    f (l.getD n 0) = (l.map f).getD n 0 := by
  rw [List.getD_eq_getElem l 0 h, List.getD_eq_getElem _ 0 (by simpa using h), List.getElem_map]

theorem prod_map_eta (f g : ℕ → ℕ) : (Prod.map f g : ℕ × ℕ → ℕ × ℕ) =
    fun pr => (f pr.1, g pr.2) := rfl

theorem acc_gates_through (cs : Composer) (ds : List ℕ) (acc : Var)
    (prs : List (Var × Var)) (c : ℕ)
    (h : ∀ pr ∈ prs, pr.1 < (addInputs cs ds).1.vars.length ∧
      pr.2 < (addInputs cs ds).1.vars.length) :
    (constrain_to_constant (hornerGates (addInputs cs ds).1 acc prs).1
        (hornerGates (addInputs cs ds).1 acc prs).2 c 0).val
        (hornerGates (addInputs cs ds).1 acc prs).2 =
      hornerFold (prs.map fun pr => ((addInputs cs ds).1.val pr.1,
        (addInputs cs ds).1.val pr.2)) ((addInputs cs ds).1.val acc) ∧
    ∃ gs, (constrain_to_constant (hornerGates (addInputs cs ds).1 acc prs).1
        (hornerGates (addInputs cs ds).1 acc prs).2 c 0).gates =
      cs.gates ++ gs ++ [Gate.constantGate (hornerGates (addInputs cs ds).1 acc prs).2 c 0] ∧
      ∀ g ∈ gs, g.isMul = true := by
  constructor
  · exact hornerGates_val_acc prs (addInputs cs ds).1 acc h
  · obtain ⟨gs, hgs, hmul⟩ := hornerGates_gates prs (addInputs cs ds).1 acc
    refine ⟨gs, ?_, hmul⟩
    simp only [constrain_to_constant]
    rw [hgs, addInputs_gates]

theorem dg_acc_aux (cs : Composer) (S : Fin 26 → ℕ) (ds : List ℕ) (top c : ℕ)
    (swf : Fin 26 → Var)
    (hds : ds.length = 26) (htop : top < p) (hdsp : ∀ d ∈ ds, d % p = d)
    (hswlt : ∀ k, swf k < cs.vars.length)
    (hsw : ∀ k, cs.val (swf k) = S k)
    (hrecomp : recomposeAux ((List.ofFn S).zip ds) top = c) (hc : c < p) :
    (constrain_to_constant
        (hornerGates (addInputs cs ((ds ++ [top]).map (· % p))).1
          ((addInputs cs ((ds ++ [top]).map (· % p))).2.getD 26 0)
          (((List.ofFn swf).zip
            ((addInputs cs ((ds ++ [top]).map (· % p))).2.take 26)).reverse)).1
        (hornerGates (addInputs cs ((ds ++ [top]).map (· % p))).1
          ((addInputs cs ((ds ++ [top]).map (· % p))).2.getD 26 0)
          (((List.ofFn swf).zip
            ((addInputs cs ((ds ++ [top]).map (· % p))).2.take 26)).reverse)).2 c 0).val
      (hornerGates (addInputs cs ((ds ++ [top]).map (· % p))).1
        ((addInputs cs ((ds ++ [top]).map (· % p))).2.getD 26 0)
        (((List.ofFn swf).zip
          ((addInputs cs ((ds ++ [top]).map (· % p))).2.take 26)).reverse)).2 = c := by
  set dlist := (ds ++ [top]).map (· % p) with hdlist
  set A := addInputs cs dlist with hA
  set prs := ((List.ofFn swf).zip (A.2.take 26)).reverse with hprs
  have hvalid : ∀ pr ∈ prs, pr.1 < A.1.vars.length ∧ pr.2 < A.1.vars.length := by
    intro pr hpr
    rw [hprs, List.mem_reverse] at hpr
    obtain ⟨a, b⟩ := pr
    have hmem := List.of_mem_zip hpr
    constructor
    · obtain ⟨k, hk⟩ := (List.mem_ofFn _ _).1 hmem.1
      rw [addInputs_vars]
      simp only [List.length_append]
      exact Nat.lt_of_lt_of_le (hk ▸ hswlt k) (Nat.le_add_right _ _)
    · exact addInputs_outs_lt cs dlist b (List.mem_of_mem_take hmem.2)
  have h1 := (acc_gates_through cs dlist (A.2.getD 26 0) prs c hvalid).1
  rw [← hA] at h1
  rw [h1]
  have hdl_len : dlist.length = 27 := by
    rw [hdlist]
    simp [hds]
  have hA2len : A.2.length = 27 := by rw [hA, addInputs_outs_length, hdl_len]
  have hmapval : A.2.map A.1.val = dlist := by rw [hA]; exact addInputs_map_val cs dlist
  have hacc : A.1.val (A.2.getD 26 0) = top := by
    rw [val_getD_map A.1.val A.2 26 (by omega), hmapval, hdlist]
    rw [List.map_append]
    rw [List.getD_append_right _ _ _ _ (by simp [hds])]
    simp [hds, Nat.mod_eq_of_lt htop]
  have hmap_prs : prs.map (fun pr => (A.1.val pr.1, A.1.val pr.2)) =
      ((List.ofFn S).zip ds).reverse := by
    rw [hprs, List.map_reverse]
    congr 1
    rw [← prod_map_eta A.1.val A.1.val, ← List.zip_map]
    congr 1
    · rw [List.map_ofFn]
      apply congrArg List.ofFn
      funext k
      show A.1.val (swf k) = S k
      rw [hA, addInputs_val_old cs dlist _ (hswlt k), hsw k]
    · rw [List.map_take, hmapval, hdlist, List.map_append]
      have h26 : (ds.map (· % p)).length = 26 := by simp [hds]
      rw [← h26, List.take_left]
      rw [List.map_congr_left hdsp]
      simp
  rw [hmap_prs, hacc]
  rw [hornerFold_eq _ _ htop, hornerNat_reverse, hrecomp, Nat.mod_eq_of_lt hc]

theorem dg_full (cs : Composer) (S I : Fin 26 → ℕ) (x : Var) (sw : Fin 27 → Var)
    (hx : cs.val x < p) (hS0 : ∀ k, 0 < S k) (hSp : ∀ k, S k < p)
    (hI : ∀ k, (S k * I k) % p = 1)
    (hswlt : ∀ k : Fin 26, sw k.castSucc < cs.vars.length)
    (hsw : ∀ k : Fin 26, cs.val (sw k.castSucc) = S k) :
    ∃ accv gs,
      (decomposition_gadget cs S I x sw).1.val accv = cs.val x ∧
      (decomposition_gadget cs S I x sw).1.gates =
        cs.gates ++ gs ++ [Gate.constantGate accv (cs.val x) 0] ∧
      ∀ g ∈ gs, g.isMul = true := by
  have hds : (decompPairs (siPairs S I) (cs.val x)).1.length = 26 := by
    rw [decompPairs_fst_length, siPairs_length]
  have htop : (decompPairs (siPairs S I) (cs.val x)).2 < p := decompPairs_snd_lt _ _ hx
  have hdsp : ∀ d ∈ (decompPairs (siPairs S I) (cs.val x)).1, d % p = d := fun d hd =>
    Nat.mod_eq_of_lt (decompPairs_fst_mem_lt _ _ (siPairs_cond_lt S I hS0 hSp) d hd)
  have hrecomp : recomposeAux ((List.ofFn S).zip (decompPairs (siPairs S I) (cs.val x)).1)
      (decompPairs (siPairs S I) (cs.val x)).2 = cs.val x := by
    have h := decompPairs_roundtrip (siPairs S I) (cs.val x) hx (siPairs_cond S I hS0 hI)
    rwa [siPairs_map_fst] at h
  have haux := dg_acc_aux cs S (decompPairs (siPairs S I) (cs.val x)).1
    (decompPairs (siPairs S I) (cs.val x)).2 (cs.val x) (fun k => sw k.castSucc)
    hds htop hdsp (fun k => hswlt k) (fun k => hsw k) hrecomp hx
  simp only [decomposition_gadget]
  obtain ⟨gs, hgs, hmul⟩ := hornerGates_gates
    (((List.ofFn fun k : Fin 26 => sw k.castSucc).zip
      ((addInputs cs (((decompPairs (siPairs S I) (cs.val x)).1 ++
        [(decompPairs (siPairs S I) (cs.val x)).2]).map (· % p))).2.take 26)).reverse)
    (addInputs cs (((decompPairs (siPairs S I) (cs.val x)).1 ++
      [(decompPairs (siPairs S I) (cs.val x)).2]).map (· % p))).1
    ((addInputs cs (((decompPairs (siPairs S I) (cs.val x)).1 ++
      [(decompPairs (siPairs S I) (cs.val x)).2]).map (· % p))).2.getD 26 0)
  refine ⟨_, gs, haux, ?_, hmul⟩
  simp only [constrain_to_constant]
  rw [hgs, addInputs_gates]

theorem siPairs_pos (S I : Fin 26 → ℕ) (hS0 : ∀ k, 0 < S k) :
    ∀ pr ∈ siPairs S I, 0 < pr.1 := by
  intro pr hpr
  obtain ⟨k, hk⟩ := (List.mem_ofFn _ _).1 hpr
  rw [← hk]
  exact hS0 k

theorem siPairs_getD (S I : Fin 26 → ℕ) (k : Fin 26) :
    (siPairs S I).getD k.val (1, 0) = (S k, I k) := by
  rw [siPairs, List.getD_eq_getElem _ _ (by simpa using k.isLt), List.getElem_ofFn]

/-! ### Witness material: a concrete parameter set satisfying the
spec-stated properties of the external constants (radix 2 everywhere, with
`inv2` its modular inverse mod `p`). -/

def inv2 : ℕ := (p + 1) / 2

def csW : Composer := ⟨5 :: List.replicate 27 2, 0, []⟩

def swW : Fin 27 → Var := fun k => k.val + 1

def S2 : Fin 26 → ℕ := fun _ => 2

def I2 : Fin 26 → ℕ := fun _ => inv2

/-! ### The claims -/

/-- Claim C1: for every valid field element `x` (canonical value in `[0, p)`),
Horner-recomposing the 27 digit values returned by `decomposition_gadget`
with the radices `S₁..S₂₆` — accumulator `= D[26]·S₂₆ + D[25]`, then
`accumulator := accumulator·S_{26−k} + D[25−k]` for `k = 1..25` — reproduces
exactly the canonical value of `x` (the `hornerNat` chain over the reversed
radix/digit pairs starts at `D[26]`, multiplies by `S₂₆` and adds `D[25]`
first, exactly as claimed), and this equality is what the gadget's added
constraints enforce: the accumulator wire of the final equality-to-constant
gate holds that same value `x`. -/
theorem c1_horner_roundtrip_enforced
    (cs : Composer) (S I : Fin 26 → ℕ) (x : Var) (sw : Fin 27 → Var)
    (hx : cs.val x < p)
    (hS0 : ∀ k, 0 < S k) (hSp : ∀ k, S k < p) (hI : ∀ k, (S k * I k) % p = 1)
    (hswlt : ∀ k : Fin 26, sw k.castSucc < cs.vars.length)
    (hsw : ∀ k : Fin 26, cs.val (sw k.castSucc) = S k) :
    hornerNat (((List.ofFn S).zip
        (((decomposition_gadget cs S I x sw).2.map
          (decomposition_gadget cs S I x sw).1.val).take 26)).reverse)
      (((decomposition_gadget cs S I x sw).2.map
        (decomposition_gadget cs S I x sw).1.val).getD 26 0) = cs.val x ∧
    ∃ accv gs,
      (decomposition_gadget cs S I x sw).1.val accv = cs.val x ∧
      (decomposition_gadget cs S I x sw).1.gates =
        cs.gates ++ gs ++ [Gate.constantGate accv (cs.val x) 0] ∧
      ∀ g ∈ gs, g.isMul = true := by
  constructor
  · rw [dg_digits_eq cs S I x sw hx hS0 hSp]
    have hds : (decompPairs (siPairs S I) (cs.val x)).1.length = 26 := by
      rw [decompPairs_fst_length, siPairs_length]
    have htake : ((decompPairs (siPairs S I) (cs.val x)).1 ++
        [(decompPairs (siPairs S I) (cs.val x)).2]).take 26 =
        (decompPairs (siPairs S I) (cs.val x)).1 := by
      rw [← hds]
      exact List.take_left _ _
    have hgetD : ((decompPairs (siPairs S I) (cs.val x)).1 ++
        [(decompPairs (siPairs S I) (cs.val x)).2]).getD 26 0 =
        (decompPairs (siPairs S I) (cs.val x)).2 := by
      rw [List.getD_append_right _ _ _ _ (by omega)]
      simp [hds]
    rw [htake, hgetD, hornerNat_reverse]
    have h := decompPairs_roundtrip (siPairs S I) (cs.val x) hx (siPairs_cond S I hS0 hI)
    rwa [siPairs_map_fst] at h
  · exact dg_full cs S I x sw hx hS0 hSp hI hswlt hsw

/-- Witness for C1 at a concrete input: composer holding `x = 5`, all radices
equal to `2` with inverse `inv2 = (p+1)/2`. -/
theorem c1_witness :
    Composer.val csW 0 < p ∧
    (hornerNat (((List.ofFn S2).zip
        (((decomposition_gadget csW S2 I2 0 swW).2.map
          (decomposition_gadget csW S2 I2 0 swW).1.val).take 26)).reverse)
      (((decomposition_gadget csW S2 I2 0 swW).2.map
        (decomposition_gadget csW S2 I2 0 swW).1.val).getD 26 0) = Composer.val csW 0 ∧
    ∃ accv gs,
      (decomposition_gadget csW S2 I2 0 swW).1.val accv = Composer.val csW 0 ∧
      (decomposition_gadget csW S2 I2 0 swW).1.gates =
        csW.gates ++ gs ++ [Gate.constantGate accv (Composer.val csW 0) 0] ∧
      ∀ g ∈ gs, g.isMul = true) :=
  ⟨by decide, c1_horner_roundtrip_enforced csW S2 I2 0 swW (by decide) (by decide)
    (by decide) (by decide) (by decide) (by decide)⟩

/-- Claim C2: one step of the decomposition witness loop recovers the exact
integer quotient: for every intermediate value `v` in `[0, p)`, multiplying
`v − (v % s)` by the modular inverse `i` of `s` in the field yields exactly
`(v − v % s) / s`, with no modular wraparound (the quotient is itself below
`p`), so the raw limbs of the resulting field element equal that quotient. -/
theorem c2_exact_division (s i v : ℕ) (hv : v < p) (hs : 0 < s)
    (hi : (s * i) % p = 1) :
    decompStep s i v = (v - v % s) / s ∧ (v - v % s) / s < p := by
  have h1 : decompStep s i v = v / s := decompStep_div s i v hv hs hi
  have h2 : (v - v % s) / s = v / s := by
    have hsub : v - v % s = s * (v / s) := by
      have := Nat.mod_add_div v s
      omega
    rw [hsub, Nat.mul_div_cancel_left _ hs]
  exact ⟨h1.trans h2.symm, h2 ▸ Nat.lt_of_le_of_lt (Nat.div_le_self v s) hv⟩

/-- Witness for C2 at `v = 5`, `s = 2`, `i = inv2`. -/
theorem c2_witness :
    5 < p ∧ 0 < 2 ∧ (2 * inv2) % p = 1 ∧
    (decompStep 2 inv2 5 = (5 - 5 % 2) / 2 ∧ (5 - 5 % 2) / 2 < p) :=
  ⟨by decide, by decide, by decide, c2_exact_division 2 inv2 5 (by decide) (by decide)
    (by decide)⟩

/-- Claim C7: each of the first 26 digit values produced by
`decomposition_gadget` (the remainders `r₀..r₂₅`) is strictly below its
radix `S_{k+1}`, and the 27th digit (the final undivided intermediate) is
below `p` divided by the product `S₁·…·S₂₆` — stated over `ℕ` as
`digit₍₂₆₎ · (S₁·…·S₂₆) < p`, the product form of the rational inequality
`digit₍₂₆₎ < p / (S₁·…·S₂₆)`. -/
theorem c7_digit_bounds (cs : Composer) (S I : Fin 26 → ℕ) (x : Var) (sw : Fin 27 → Var)
    (hx : cs.val x < p) (hS0 : ∀ k, 0 < S k) (hI : ∀ k, (S k * I k) % p = 1) :
    (∀ k : Fin 26, ((decomposition_gadget cs S I x sw).2.map
        (decomposition_gadget cs S I x sw).1.val).getD k.val 0 < S k) ∧
    ((decomposition_gadget cs S I x sw).2.map
        (decomposition_gadget cs S I x sw).1.val).getD 26 0 * (List.ofFn S).prod < p := by
  rw [dg_map_val]
  have hds : (decompPairs (siPairs S I) (cs.val x)).1.length = 26 := by
    rw [decompPairs_fst_length, siPairs_length]
  constructor
  · intro k
    rw [List.map_append, List.getD_append _ _ _ _ (by simpa [hds] using k.isLt),
      ← val_getD_map (fun d => d % p) _ k.val (by omega)]
    have hlt := decompPairs_fst_lt (siPairs S I) (cs.val x) (siPairs_pos S I hS0) k.val
      (by rw [siPairs_length]; exact k.isLt)
    rw [siPairs_getD] at hlt
    exact Nat.lt_of_le_of_lt (Nat.mod_le _ _) hlt
  · rw [List.map_append, List.getD_append_right _ _ _ _ (by simp [hds])]
    simp only [List.length_map, hds, Nat.sub_self, List.map_cons, List.map_nil,
      List.getD_cons_zero]
    have hdiv := decompPairs_snd_div (siPairs S I) (cs.val x) hx (siPairs_cond S I hS0 hI)
    rw [siPairs_map_fst] at hdiv
    calc (decompPairs (siPairs S I) (cs.val x)).2 % p * (List.ofFn S).prod
        ≤ (decompPairs (siPairs S I) (cs.val x)).2 * (List.ofFn S).prod :=
          Nat.mul_le_mul_right _ (Nat.mod_le _ _)
      _ ≤ cs.val x := by
          rw [hdiv]
          exact Nat.div_mul_le_self _ _
      _ < p := hx

/-- Witness for C7 at the concrete parameter set `csW`, `S2`, `I2`. -/
theorem c7_witness :
    Composer.val csW 0 < p ∧
    ((∀ k : Fin 26, ((decomposition_gadget csW S2 I2 0 swW).2.map
        (decomposition_gadget csW S2 I2 0 swW).1.val).getD k.val 0 < S2 k) ∧
    ((decomposition_gadget csW S2 I2 0 swW).2.map
        (decomposition_gadget csW S2 I2 0 swW).1.val).getD 26 0 * (List.ofFn S2).prod < p) :=
  ⟨by decide, c7_digit_bounds csW S2 I2 0 swW (by decide) (by decide) (by decide)⟩

theorem gate_isMul_not_isEqual (g : Gate) (h : g.isMul = true) : g.isEqual = false := by
  cases g <;> first | rfl | exact absurd h (by simp [Gate.isMul])

/-- Claim C8: the final check of `decomposition_gadget` constrains the Horner
accumulator wire to equal, as a constant, the numeric value currently
assigned to the input wire `x` (`self.variables[&x]`): the gadget's added
gates are fused multiply-add gates followed by exactly one
equality-to-constant gate carrying the value `cs.val x`, and none of the
added gates is a wire-to-wire equality gate. -/
theorem c8_constant_gate_shape (cs : Composer) (S I : Fin 26 → ℕ) (x : Var)
    (sw : Fin 27 → Var) :
    ∃ accv gs,
      (decomposition_gadget cs S I x sw).1.gates =
        cs.gates ++ gs ++ [Gate.constantGate accv (cs.val x) 0] ∧
      (∀ g ∈ gs, g.isMul = true) ∧
      ∀ g ∈ gs ++ [Gate.constantGate accv (cs.val x) 0], g.isEqual = false := by
  simp only [decomposition_gadget]
  obtain ⟨gs, hgs, hmul⟩ := hornerGates_gates
    (((List.ofFn fun k : Fin 26 => sw k.castSucc).zip
      ((addInputs cs (((decompPairs (siPairs S I) (cs.val x)).1 ++
        [(decompPairs (siPairs S I) (cs.val x)).2]).map (· % p))).2.take 26)).reverse)
    (addInputs cs (((decompPairs (siPairs S I) (cs.val x)).1 ++
      [(decompPairs (siPairs S I) (cs.val x)).2]).map (· % p))).1
    ((addInputs cs (((decompPairs (siPairs S I) (cs.val x)).1 ++
      [(decompPairs (siPairs S I) (cs.val x)).2]).map (· % p))).2.getD 26 0)
  refine ⟨(hornerGates
      (addInputs cs (((decompPairs (siPairs S I) (cs.val x)).1 ++
        [(decompPairs (siPairs S I) (cs.val x)).2]).map (· % p))).1
      ((addInputs cs (((decompPairs (siPairs S I) (cs.val x)).1 ++
        [(decompPairs (siPairs S I) (cs.val x)).2]).map (· % p))).2.getD 26 0)
      (((List.ofFn fun k : Fin 26 => sw k.castSucc).zip
        ((addInputs cs (((decompPairs (siPairs S I) (cs.val x)).1 ++
          [(decompPairs (siPairs S I) (cs.val x)).2]).map (· % p))).2.take 26)).reverse)).2,
    gs, ?_, hmul, ?_⟩
  · simp only [constrain_to_constant]
    rw [hgs, addInputs_gates]
  · intro g hg
    rcases List.mem_append.1 hg with h | h
    · exact gate_isMul_not_isEqual g (hmul g h)
    · rcases List.mem_singleton.1 h with rfl
      rfl

theorem recomposeAux_zeros (prs : List (ℕ × ℕ)) (h : ∀ pr ∈ prs, pr.2 = 0) :
    recomposeAux prs 0 = 0 := by
  induction prs with
  | nil => rfl
  | cons pr rest ih =>
    simp only [recomposeAux]
    rw [h pr (List.mem_cons_self _ _), ih (fun q hq => h q (List.mem_cons_of_mem pr hq))]
    simp

theorem decompPairs_one (si : List (ℕ × ℕ)) (h2 : ∀ pr ∈ si, 2 ≤ pr.1) (hne : si ≠ []) :
    decompPairs si 1 = (1 :: List.replicate (si.length - 1) 0, 0) := by
  match si with
  | [] => exact absurd rfl hne
  | pr :: rest =>
    have h1 : (1 : ℕ) % pr.1 = 1 := by
      have := h2 pr (List.mem_cons_self _ _)
      exact Nat.mod_eq_of_lt (by omega)
    simp only [decompPairs, decompStep, h1, Nat.sub_self, Nat.zero_mul, Nat.zero_mod]
    rw [decompPairs_zero]
    simp

/-- Composer for the concrete decomposition of the field element 1. -/
def cs1W : Composer := ⟨1 :: List.replicate 27 2, 0, []⟩

/-- Counterexample to claim C3 as stated: the claim gives index 0 the largest
positional weight `S₁·…·S₂₆` and index 26 weight 1.  At the concrete input 1
(with all radices 2) the gadget returns the digit vector `[1, 0, …, 0]`; a
recomposition that gives index 0 the weight `S₁·…·S₂₆ = 2²⁶` would produce
`67108864`, but the recomposition the gadget's constraints enforce produces
the input value `1` — so index 0 cannot be the most significant digit. -/
theorem c3_counterexample :
    Composer.val cs1W 0 = 1 ∧
    claimRecompose S2 ((decomposition_gadget cs1W S2 I2 0 swW).2.map
      (decomposition_gadget cs1W S2 I2 0 swW).1.val) = 67108864 ∧
    hornerNat (((List.ofFn S2).zip
        (((decomposition_gadget cs1W S2 I2 0 swW).2.map
          (decomposition_gadget cs1W S2 I2 0 swW).1.val).take 26)).reverse)
      (((decomposition_gadget cs1W S2 I2 0 swW).2.map
        (decomposition_gadget cs1W S2 I2 0 swW).1.val).getD 26 0) = 1 ∧
    ¬(67108864 = 1) := by
  refine ⟨by decide, by decide, by decide, by decide⟩

/-- Claim C3 (amended): in the 27-entry array returned by
`decomposition_gadget`, index 0 holds the least significant digit (positional
weight 1 in the enforced recomposition) and index 26 the most significant
(weight `S₁·…·S₂₆`); decomposing the field element 1 yields the digit at
index 0 equal to 1 and all other 26 digits equal to 0.  The second conjunct
shows the enforced recomposition of that digit vector is `1` (index 0 carries
weight 1); the third shows the digit vector with a single 1 at index 26
recomposes to `S₁·…·S₂₆` (index 26 carries the full product weight). -/
theorem c3_amended (cs : Composer) (S I : Fin 26 → ℕ) (x : Var) (sw : Fin 27 → Var)
    (hx1 : cs.val x = 1) (hS2 : ∀ k, 2 ≤ S k) (hSp : ∀ k, S k < p)
    (hI : ∀ k, (S k * I k) % p = 1) :
    ((decomposition_gadget cs S I x sw).2.map (decomposition_gadget cs S I x sw).1.val) =
      1 :: List.replicate 26 0 ∧
    hornerNat (((List.ofFn S).zip ((1 :: List.replicate 26 0).take 26)).reverse)
      ((1 :: List.replicate 26 0).getD 26 0) = 1 ∧
    hornerNat (((List.ofFn S).zip ((List.replicate 26 0 ++ [1]).take 26)).reverse)
      ((List.replicate 26 0 ++ [1]).getD 26 0) = (List.ofFn S).prod := by
  have hS0 : ∀ k, 0 < S k := fun k => by have := hS2 k; omega
  have hx : cs.val x < p := by rw [hx1]; decide
  have hmem2 : ∀ pr ∈ siPairs S I, 2 ≤ pr.1 := by
    intro pr hpr
    obtain ⟨k, hk⟩ := (List.mem_ofFn _ _).1 hpr
    rw [← hk]
    exact hS2 k
  have hne : siPairs S I ≠ [] := by
    intro h
    have := congrArg List.length h
    rw [siPairs_length] at this
    simp at this
  have hone := decompPairs_one (siPairs S I) hmem2 hne
  refine ⟨?_, ?_, ?_⟩
  · rw [dg_digits_eq cs S I x sw hx hS0 hSp, hx1, hone, siPairs_length]
    decide
  · have hz : ∀ pr ∈ (List.ofFn S).zip (List.replicate 25 (0 : ℕ)), pr.2 = 0 := by
      intro pr hpr
      exact List.eq_of_mem_replicate (List.of_mem_zip hpr).2
    have htake : (1 :: List.replicate 26 (0 : ℕ)).take 26 = 1 :: List.replicate 25 0 := by
      decide
    rw [htake, hornerNat_reverse]
    show recomposeAux ((List.ofFn S).zip (1 :: List.replicate 25 0))
      ((1 :: List.replicate 26 (0 : ℕ)).getD 26 0) = 1
    rw [List.ofFn_succ, List.zip_cons_cons]
    simp only [recomposeAux]
    simp
  · have h1 : (List.replicate 26 (0 : ℕ) ++ [1]).take 26 = List.replicate 26 0 := by decide
    have h2 : (List.replicate 26 (0 : ℕ) ++ [1]).getD 26 0 = 1 := by decide
    rw [h1, h2]
    have hz : (List.ofFn S).zip (List.replicate 26 (0 : ℕ)) =
        (List.ofFn S).map fun s => (s, 0) := by
      have h26 : List.replicate 26 (0 : ℕ) = List.replicate (List.ofFn S).length 0 := by
        simp
      rw [h26, zip_replicate_zero]
    rw [hz, ← List.map_reverse, hornerNat_zero_digits, List.prod_reverse]
    simp

/-- Witness for C3 (amended) at the concrete input 1 with all radices 2. -/
theorem c3_witness :
    Composer.val cs1W 0 = 1 ∧
    (((decomposition_gadget cs1W S2 I2 0 swW).2.map
        (decomposition_gadget cs1W S2 I2 0 swW).1.val) = 1 :: List.replicate 26 0 ∧
    hornerNat (((List.ofFn S2).zip ((1 :: List.replicate 26 0).take 26)).reverse)
      ((1 :: List.replicate 26 0).getD 26 0) = 1 ∧
    hornerNat (((List.ofFn S2).zip ((List.replicate 26 0 ++ [1]).take 26)).reverse)
      ((List.replicate 26 0 ++ [1]).getD 26 0) = (List.ofFn S2).prod) :=
  ⟨by decide, c3_amended cs1W S2 I2 0 swW (by decide) (by decide) (by decide) (by decide)⟩

/-! ### Branch characterizations of `s_box_and_constraints` -/

theorem sbox_sub_branch (cs : Composer) (SBOX BSR : ℕ → ℕ) (input : Var)
    (counter : ℕ) (conditional : Bool) (one two : Var)
    (hcond : lowLimb (cs.val input) < 659) :
    s_box_and_constraints cs SBOX BSR input counter conditional one two =
      (plookup_gate (add_input (add_input cs (SBOX (lowLimb (cs.val input)) % p)).1
          ((counter * (add_input cs (SBOX (lowLimb (cs.val input)) % p)).1.val
            cs.zero_var) % p)).1
        input
        (add_input (add_input cs (SBOX (lowLimb (cs.val input)) % p)).1
          ((counter * (add_input cs (SBOX (lowLimb (cs.val input)) % p)).1.val
            cs.zero_var) % p)).2
        (add_input cs (SBOX (lowLimb (cs.val input)) % p)).2 (some one) 0,
       (add_input cs (SBOX (lowLimb (cs.val input)) % p)).2, one, true, cs.zero_var) := by
  simp only [s_box_and_constraints, if_pos hcond]

theorem sbox_gt_branch (cs : Composer) (SBOX BSR : ℕ → ℕ) (input : Var)
    (counter : ℕ) (conditional : Bool) (one two : Var)
    (h659 : ¬ lowLimb (cs.val input) < 659)
    (hgt : lowLimb (cs.val input) > lowLimb (BSR (bsrIndex counter))) :
    s_box_and_constraints cs SBOX BSR input counter conditional one two =
      (plookup_gate (add_input cs ((counter * cs.val one) % p)).1 input
        (add_input cs ((counter * cs.val one) % p)).2 input (some two) 0,
       input, two, true, one) := by
  simp only [s_box_and_constraints, if_neg h659, if_pos hgt]

theorem sbox_eq_branch (cs : Composer) (SBOX BSR : ℕ → ℕ) (input : Var)
    (counter : ℕ) (conditional : Bool) (one two : Var)
    (h659 : ¬ lowLimb (cs.val input) < 659)
    (heq : lowLimb (cs.val input) = lowLimb (BSR (bsrIndex counter))) :
    s_box_and_constraints cs SBOX BSR input counter conditional one two =
      (plookup_gate (add_input cs ((counter * cs.val one) % p)).1 input
        (add_input cs ((counter * cs.val one) % p)).2 input
        (some (if conditional then two else cs.zero_var)) 0,
       input, (if conditional then two else cs.zero_var),
       (if conditional then true else conditional), one) := by
  have hngt : ¬ lowLimb (cs.val input) > lowLimb (BSR (bsrIndex counter)) := by omega
  simp only [s_box_and_constraints, if_neg h659, if_neg hngt, if_pos heq]
  cases conditional <;> simp

theorem sbox_lt_branch (cs : Composer) (SBOX BSR : ℕ → ℕ) (input : Var)
    (counter : ℕ) (conditional : Bool) (one two : Var)
    (h659 : ¬ lowLimb (cs.val input) < 659)
    (hlt : lowLimb (cs.val input) < lowLimb (BSR (bsrIndex counter))) :
    s_box_and_constraints cs SBOX BSR input counter conditional one two =
      (plookup_gate (add_input cs ((counter * cs.val one) % p)).1 input
        (add_input cs ((counter * cs.val one) % p)).2 input (some one) 0,
       input, one, conditional, one) := by
  have hngt : ¬ lowLimb (cs.val input) > lowLimb (BSR (bsrIndex counter)) := by omega
  have hne : ¬ lowLimb (cs.val input) = lowLimb (BSR (bsrIndex counter)) := by omega
  simp only [s_box_and_constraints, if_neg h659, if_neg hngt, if_neg hne]

/-! ### Witness material for the digit-substitution gadget -/

/-- A concrete substitution table for witnesses. -/
def sboxW : ℕ → ℕ := fun n => n + 100

/-- A concrete reference-digit array for witnesses. -/
def bsrW : ℕ → ℕ := fun _ => 700

/-- Composer with a digit wire holding 100 (inside the table domain). -/
def cs4W : Composer := ⟨[0, 1, 2, 100], 0, []⟩

/-- Claim C4: for every input digit wire whose canonical value is below the
table-domain threshold `T = 659`, `s_box_and_constraints` returns `y` holding
the table-substituted value `SBOX[v]`, `conditional_out = true`, `c` = the
supplied one-tag wire, and `z` = a zero-valued wire (the composer's zero
wire). -/
theorem c4_substitution (cs : Composer) (SBOX BSR : ℕ → ℕ) (input : Var)
    (counter : ℕ) (conditional : Bool) (one two : Var)
    (hv : cs.val input < 659) (hzv : cs.zero_var < cs.vars.length)
    (hz : cs.val cs.zero_var = 0) (hsb : SBOX (cs.val input) < p) :
    (s_box_and_constraints cs SBOX BSR input counter conditional one two).1.val
      (s_box_and_constraints cs SBOX BSR input counter conditional one two).2.1 =
      SBOX (cs.val input) ∧
    (s_box_and_constraints cs SBOX BSR input counter conditional one two).2.2.2.1 = true ∧
    (s_box_and_constraints cs SBOX BSR input counter conditional one two).2.2.1 = one ∧
    (s_box_and_constraints cs SBOX BSR input counter conditional one two).2.2.2.2 =
      cs.zero_var ∧
    (s_box_and_constraints cs SBOX BSR input counter conditional one two).1.val
      (s_box_and_constraints cs SBOX BSR input counter conditional one two).2.2.2.2 = 0 := by
  have hlimb : lowLimb (cs.val input) = cs.val input :=
    Nat.mod_eq_of_lt (Nat.lt_trans hv (by decide))
  have hcond : lowLimb (cs.val input) < 659 := by rw [hlimb]; exact hv
  rw [sbox_sub_branch cs SBOX BSR input counter conditional one two hcond]
  refine ⟨?_, rfl, rfl, rfl, ?_⟩
  · show (add_input (add_input cs (SBOX (lowLimb (cs.val input)) % p)).1
        ((counter * (add_input cs (SBOX (lowLimb (cs.val input)) % p)).1.val
          cs.zero_var) % p)).1.val
      (add_input cs (SBOX (lowLimb (cs.val input)) % p)).2 = SBOX (cs.val input)
    rw [add_input_val_old _ _ _ (by simp [add_input]), add_input_val_new, hlimb,
      Nat.mod_eq_of_lt hsb]
  · show (add_input (add_input cs (SBOX (lowLimb (cs.val input)) % p)).1
        ((counter * (add_input cs (SBOX (lowLimb (cs.val input)) % p)).1.val
          cs.zero_var) % p)).1.val cs.zero_var = 0
    rw [add_input_val_old _ _ _ (Nat.lt_of_lt_of_le hzv
        (by rw [add_input_vars]; simp)),
      add_input_val_old _ _ _ hzv, hz]

/-- Witness for C4: digit 100 with the concrete table `sboxW`. -/
theorem c4_witness :
    Composer.val cs4W 3 < 659 ∧
    ((s_box_and_constraints cs4W sboxW bsrW 3 5 false 1 2).1.val
      (s_box_and_constraints cs4W sboxW bsrW 3 5 false 1 2).2.1 =
      sboxW (Composer.val cs4W 3) ∧
    (s_box_and_constraints cs4W sboxW bsrW 3 5 false 1 2).2.2.2.1 = true ∧
    (s_box_and_constraints cs4W sboxW bsrW 3 5 false 1 2).2.2.1 = 1 ∧
    (s_box_and_constraints cs4W sboxW bsrW 3 5 false 1 2).2.2.2.2 = cs4W.zero_var ∧
    (s_box_and_constraints cs4W sboxW bsrW 3 5 false 1 2).1.val
      (s_box_and_constraints cs4W sboxW bsrW 3 5 false 1 2).2.2.2.2 = 0) :=
  ⟨by decide, c4_substitution cs4W sboxW bsrW 3 5 false 1 2 (by decide) (by decide)
    (by decide) (by decide)⟩

/-- Composer with a digit wire holding `2⁶⁴` (canonical value far above the
table-domain threshold, but with low 64-bit limb 0). -/
def cs5W : Composer := ⟨[0, 1, 2, 2 ^ 64], 0, []⟩

/-- Counterexample to claim C5 as stated: the wire `3` of `cs5W` holds the
canonical value `2⁶⁴ ≥ 659`, the counter is in `[1, 27]`, yet the gadget does
not pass the input through: it returns a fresh `y` wire (`y ≠ input`) and
`z` = the zero wire instead of the one-tag wire, because the branch test
reads only the low 64-bit limb (here 0 < 659). -/
theorem c5_counterexample :
    659 ≤ Composer.val cs5W 3 ∧ 1 ≤ (1 : ℕ) ∧ (1 : ℕ) ≤ 27 ∧
    (s_box_and_constraints cs5W sboxW bsrW 3 1 false 1 2).2.2.2.2 = 0 ∧
    ((0 : ℕ) ≠ 1) ∧
    (s_box_and_constraints cs5W sboxW bsrW 3 1 false 1 2).2.1 ≠ 3 := by
  refine ⟨by decide, by decide, by decide, by decide, by decide, by decide⟩

/-- Claim C5 (amended): the hypothesis `canonical(v) ≥ 659` is replaced by
`lowLimb (canonical v) ≥ 659` — the low 64-bit limb that the source actually
compares (for digits below `2⁶⁴`, the two coincide) — and the reference digit
is likewise its low limb `R = lowLimb (BSR[27 − counter])`.  Then for every
counter in `[1, 27]` and inherited conditional: `y = v` unchanged (the same
wire handle), `z` = the one-tag wire, the three-way comparison against `R`
selects `c` and `conditional_out` exactly as claimed, and one auxiliary wire
holding `counter · value(z)` plus one 4-wire lookup gate binding
`(v, auxiliary, y, c)` are added. -/
theorem c5_passthrough_amended (cs : Composer) (SBOX BSR : ℕ → ℕ) (input : Var)
    (counter : ℕ) (conditional : Bool) (one two : Var)
    (hlimb : 659 ≤ lowLimb (cs.val input))
    (h1 : 1 ≤ counter) (h27 : counter ≤ 27) :
    (s_box_and_constraints cs SBOX BSR input counter conditional one two).2.1 = input ∧
    (s_box_and_constraints cs SBOX BSR input counter conditional one two).2.2.2.2 = one ∧
    (lowLimb (cs.val input) > lowLimb (BSR (bsrIndex counter)) →
      (s_box_and_constraints cs SBOX BSR input counter conditional one two).2.2.1 = two ∧
      (s_box_and_constraints cs SBOX BSR input counter conditional one two).2.2.2.1 = true) ∧
    (lowLimb (cs.val input) = lowLimb (BSR (bsrIndex counter)) →
      ((conditional = true →
        (s_box_and_constraints cs SBOX BSR input counter conditional one two).2.2.1 = two ∧
        (s_box_and_constraints cs SBOX BSR input counter conditional one two).2.2.2.1 =
          true) ∧
       (conditional = false →
        (s_box_and_constraints cs SBOX BSR input counter conditional one two).2.2.1 =
          cs.zero_var ∧
        (s_box_and_constraints cs SBOX BSR input counter conditional one two).2.2.2.1 =
          false))) ∧
    (lowLimb (cs.val input) < lowLimb (BSR (bsrIndex counter)) →
      (s_box_and_constraints cs SBOX BSR input counter conditional one two).2.2.1 = one ∧
      (s_box_and_constraints cs SBOX BSR input counter conditional one two).2.2.2.1 =
        conditional) ∧
    ∃ auxv, (s_box_and_constraints cs SBOX BSR input counter conditional one two).1.gates =
        cs.gates ++ [Gate.lookupGate input auxv input
          (s_box_and_constraints cs SBOX BSR input counter conditional one two).2.2.1 0] ∧
      (s_box_and_constraints cs SBOX BSR input counter conditional one two).1.val auxv =
        (counter * cs.val one) % p := by
  have h659 : ¬ lowLimb (cs.val input) < 659 := by omega
  rcases Nat.lt_trichotomy (lowLimb (cs.val input)) (lowLimb (BSR (bsrIndex counter)))
    with hc | hc | hc
  · rw [sbox_lt_branch cs SBOX BSR input counter conditional one two h659 hc]
    refine ⟨rfl, rfl, fun h => absurd h (by omega), fun h => absurd h (by omega),
      fun _ => ⟨rfl, rfl⟩, (add_input cs ((counter * cs.val one) % p)).2, rfl, ?_⟩
    exact add_input_val_new cs _
  · rw [sbox_eq_branch cs SBOX BSR input counter conditional one two h659 hc]
    refine ⟨rfl, rfl, fun h => absurd h (by omega), ?_, fun h => absurd h (by omega),
      (add_input cs ((counter * cs.val one) % p)).2, rfl, ?_⟩
    · intro _
      constructor
      · intro ht
        rw [ht]
        exact ⟨rfl, rfl⟩
      · intro hf
        rw [hf]
        exact ⟨rfl, rfl⟩
    · exact add_input_val_new cs _
  · rw [sbox_gt_branch cs SBOX BSR input counter conditional one two h659 hc]
    refine ⟨rfl, rfl, fun _ => ⟨rfl, rfl⟩, fun h => absurd h (by omega),
      fun h => absurd h (by omega),
      (add_input cs ((counter * cs.val one) % p)).2, rfl, ?_⟩
    exact add_input_val_new cs _

/-- Composer with a digit wire holding 700 (above the table-domain
threshold and equal to the reference digit `bsrW` returns). -/
def cs5V : Composer := ⟨[0, 1, 2, 700], 0, []⟩

/-- Witness for C5 (amended): digit 700 with reference digit 700 (tie case)
at counter 2. -/
theorem c5_witness :
    659 ≤ lowLimb (Composer.val cs5V 3) ∧ 1 ≤ (2 : ℕ) ∧ (2 : ℕ) ≤ 27 ∧
    ((s_box_and_constraints cs5V sboxW bsrW 3 2 true 1 2).2.1 = 3 ∧
    (s_box_and_constraints cs5V sboxW bsrW 3 2 true 1 2).2.2.2.2 = 1 ∧
    (lowLimb (Composer.val cs5V 3) > lowLimb (bsrW (bsrIndex 2)) →
      (s_box_and_constraints cs5V sboxW bsrW 3 2 true 1 2).2.2.1 = 2 ∧
      (s_box_and_constraints cs5V sboxW bsrW 3 2 true 1 2).2.2.2.1 = true) ∧
    (lowLimb (Composer.val cs5V 3) = lowLimb (bsrW (bsrIndex 2)) →
      ((true = true →
        (s_box_and_constraints cs5V sboxW bsrW 3 2 true 1 2).2.2.1 = 2 ∧
        (s_box_and_constraints cs5V sboxW bsrW 3 2 true 1 2).2.2.2.1 = true) ∧
       (true = false →
        (s_box_and_constraints cs5V sboxW bsrW 3 2 true 1 2).2.2.1 = cs5V.zero_var ∧
        (s_box_and_constraints cs5V sboxW bsrW 3 2 true 1 2).2.2.2.1 = false))) ∧
    (lowLimb (Composer.val cs5V 3) < lowLimb (bsrW (bsrIndex 2)) →
      (s_box_and_constraints cs5V sboxW bsrW 3 2 true 1 2).2.2.1 = 1 ∧
      (s_box_and_constraints cs5V sboxW bsrW 3 2 true 1 2).2.2.2.1 = true) ∧
    ∃ auxv, (s_box_and_constraints cs5V sboxW bsrW 3 2 true 1 2).1.gates =
        cs5V.gates ++ [Gate.lookupGate 3 auxv 3
          (s_box_and_constraints cs5V sboxW bsrW 3 2 true 1 2).2.2.1 0] ∧
      (s_box_and_constraints cs5V sboxW bsrW 3 2 true 1 2).1.val auxv =
        (2 * Composer.val cs5V 1) % p) :=
  ⟨by decide, by decide, by decide,
    c5_passthrough_amended cs5V sboxW bsrW 3 2 true 1 2 (by decide) (by decide) (by decide)⟩

/-- Claim C6: the carried comparison flag is monotone.  A single call with
inherited `conditional = true` always returns `conditional_out = true`, and
consequently, in the chained most-significant-to-least-significant scan, once
the flag is true it stays true through every subsequent position regardless
of the digits there. -/
theorem c6_conditional_monotone (cs : Composer) (SBOX BSR : ℕ → ℕ) (input : Var)
    (counter : ℕ) (one two : Var) :
    (s_box_and_constraints cs SBOX BSR input counter true one two).2.2.2.1 = true ∧
    ∀ (steps : List (Var × ℕ)) (cs2 : Composer),
      (sBoxChain SBOX BSR one two cs2 true steps).2 = true := by
  have hstep : ∀ (csx : Composer) (inp : Var) (cnt : ℕ),
      (s_box_and_constraints csx SBOX BSR inp cnt true one two).2.2.2.1 = true := by
    intro csx inp cnt
    by_cases h659 : lowLimb (csx.val inp) < 659
    · rw [sbox_sub_branch csx SBOX BSR inp cnt true one two h659]
    · rcases Nat.lt_trichotomy (lowLimb (csx.val inp)) (lowLimb (BSR (bsrIndex cnt)))
        with hc | hc | hc
      · rw [sbox_lt_branch csx SBOX BSR inp cnt true one two h659 hc]
      · rw [sbox_eq_branch csx SBOX BSR inp cnt true one two h659 hc]
        simp
      · rw [sbox_gt_branch csx SBOX BSR inp cnt true one two h659 hc]
  refine ⟨hstep cs input counter, ?_⟩
  intro steps
  induction steps with
  | nil => intro cs2; rfl
  | cons st rest ih =>
    intro cs2
    simp only [sBoxChain]
    rw [hstep cs2 st.1 st.2]
    exact ih _

/-- Modelled from the spec: the substitution table's domain is `[0, T)` with
`T = 659`, so the table `SBOX_U256` has 659 entries. -/
def sboxTableLen : ℕ := 659

/-- Claim C9: totality of both gadgets under well-formed inputs.
`decomposition_gadget` always returns 27 wires; for every counter with
`1 ≤ counter ≤ 27` the index `27 − counter` into `BLS_SCALAR_REAL` stays
within the 27-entry array and the `u64` subtraction does not underflow (the
truncated natural subtraction agrees with integer subtraction); the `SBOX`
index — the low limb — is within the 659-entry table whenever the
substitution branch's guard holds; and `s_box_and_constraints` always
completes, adding exactly one (lookup) gate. -/
theorem c9_totality (cs : Composer) (S I : Fin 26 → ℕ) (x : Var) (sw : Fin 27 → Var)
    (counter : ℕ) (h1 : 1 ≤ counter) (h27 : counter ≤ 27) :
    (decomposition_gadget cs S I x sw).2.length = 27 ∧
    bsrIndex counter < 27 ∧
    ((bsrIndex counter : ℤ) = 27 - (counter : ℤ)) ∧
    (∀ v : ℕ, lowLimb v < 659 → lowLimb v < sboxTableLen) ∧
    ∀ (SBOX BSR : ℕ → ℕ) (input : Var) (conditional : Bool) (one two : Var),
      (s_box_and_constraints cs SBOX BSR input counter conditional one two).1.gates.length =
        cs.gates.length + 1 := by
  refine ⟨dg_nibbles_length cs S I x sw, ?_, ?_, fun v h => h, ?_⟩
  · unfold bsrIndex
    omega
  · unfold bsrIndex
    omega
  · intro SBOX BSR input conditional one two
    by_cases h659 : lowLimb (cs.val input) < 659
    · rw [sbox_sub_branch cs SBOX BSR input counter conditional one two h659]
      simp [plookup_gate, add_input]
    · rcases Nat.lt_trichotomy (lowLimb (cs.val input)) (lowLimb (BSR (bsrIndex counter)))
        with hc | hc | hc
      · rw [sbox_lt_branch cs SBOX BSR input counter conditional one two h659 hc]
        simp [plookup_gate, add_input]
      · rw [sbox_eq_branch cs SBOX BSR input counter conditional one two h659 hc]
        simp [plookup_gate, add_input]
      · rw [sbox_gt_branch cs SBOX BSR input counter conditional one two h659 hc]
        simp [plookup_gate, add_input]

/-- Witness for C9 at counter 5 with the concrete decomposition parameters. -/
theorem c9_witness :
    1 ≤ (5 : ℕ) ∧ (5 : ℕ) ≤ 27 ∧
    ((decomposition_gadget csW S2 I2 0 swW).2.length = 27 ∧
    bsrIndex 5 < 27 ∧
    ((bsrIndex 5 : ℤ) = 27 - (5 : ℤ)) ∧
    (∀ v : ℕ, lowLimb v < 659 → lowLimb v < sboxTableLen) ∧
    ∀ (SBOX BSR : ℕ → ℕ) (input : Var) (conditional : Bool) (one two : Var),
      (s_box_and_constraints csW SBOX BSR input 5 conditional one two).1.gates.length =
        csW.gates.length + 1) :=
  ⟨by decide, by decide, c9_totality csW S2 I2 0 swW 5 (by decide) (by decide)⟩

/-- Composer with digit wires holding `2⁶⁴` (wire 3) and `2¹²⁸` (wire 4):
different canonical values, identical low 64-bit limb 0. -/
def cs10W : Composer := ⟨[0, 1, 2, 2 ^ 64, 2 ^ 128], 0, []⟩

/-- Claim C10: every size comparison in `s_box_and_constraints` inspects only
the low 64-bit limb `lowLimb` of the reduced input.  Two input wires whose
canonical values share that limb produce the same `c` tag, the same
`conditional_out`, and the same `z`; and whenever the low limb is below 659
the substitution branch is taken — `y` holds `SBOX[lowLimb] mod p` and
`conditional_out = true` — regardless of how large the full canonical value
is. -/
theorem c10_low_limb_only (cs : Composer) (SBOX BSR : ℕ → ℕ) (in1 in2 : Var)
    (counter : ℕ) (conditional : Bool) (one two : Var)
    (h : lowLimb (cs.val in1) = lowLimb (cs.val in2)) :
    ((s_box_and_constraints cs SBOX BSR in1 counter conditional one two).2.2.1 =
      (s_box_and_constraints cs SBOX BSR in2 counter conditional one two).2.2.1 ∧
     (s_box_and_constraints cs SBOX BSR in1 counter conditional one two).2.2.2.1 =
      (s_box_and_constraints cs SBOX BSR in2 counter conditional one two).2.2.2.1 ∧
     (s_box_and_constraints cs SBOX BSR in1 counter conditional one two).2.2.2.2 =
      (s_box_and_constraints cs SBOX BSR in2 counter conditional one two).2.2.2.2) ∧
    (lowLimb (cs.val in1) < 659 →
      (s_box_and_constraints cs SBOX BSR in1 counter conditional one two).1.val
        (s_box_and_constraints cs SBOX BSR in1 counter conditional one two).2.1 =
        SBOX (lowLimb (cs.val in1)) % p ∧
      (s_box_and_constraints cs SBOX BSR in1 counter conditional one two).2.2.2.1 =
        true) := by
  constructor
  · by_cases h659 : lowLimb (cs.val in1) < 659
    · have h659b : lowLimb (cs.val in2) < 659 := h ▸ h659
      rw [sbox_sub_branch cs SBOX BSR in1 counter conditional one two h659,
        sbox_sub_branch cs SBOX BSR in2 counter conditional one two h659b]
      exact ⟨rfl, rfl, rfl⟩
    · have h659b : ¬ lowLimb (cs.val in2) < 659 := by rw [← h]; exact h659
      rcases Nat.lt_trichotomy (lowLimb (cs.val in1)) (lowLimb (BSR (bsrIndex counter)))
        with hc | hc | hc
      · have hcb : lowLimb (cs.val in2) < lowLimb (BSR (bsrIndex counter)) := h ▸ hc
        rw [sbox_lt_branch cs SBOX BSR in1 counter conditional one two h659 hc,
          sbox_lt_branch cs SBOX BSR in2 counter conditional one two h659b hcb]
        exact ⟨rfl, rfl, rfl⟩
      · have hcb : lowLimb (cs.val in2) = lowLimb (BSR (bsrIndex counter)) := h ▸ hc
        rw [sbox_eq_branch cs SBOX BSR in1 counter conditional one two h659 hc,
          sbox_eq_branch cs SBOX BSR in2 counter conditional one two h659b hcb]
        exact ⟨rfl, rfl, rfl⟩
      · have hcb : lowLimb (cs.val in2) > lowLimb (BSR (bsrIndex counter)) := h ▸ hc
        rw [sbox_gt_branch cs SBOX BSR in1 counter conditional one two h659 hc,
          sbox_gt_branch cs SBOX BSR in2 counter conditional one two h659b hcb]
        exact ⟨rfl, rfl, rfl⟩
  · intro h659
    rw [sbox_sub_branch cs SBOX BSR in1 counter conditional one two h659]
    refine ⟨?_, rfl⟩
    show (add_input (add_input cs (SBOX (lowLimb (cs.val in1)) % p)).1
        ((counter * (add_input cs (SBOX (lowLimb (cs.val in1)) % p)).1.val
          cs.zero_var) % p)).1.val
      (add_input cs (SBOX (lowLimb (cs.val in1)) % p)).2 = SBOX (lowLimb (cs.val in1)) % p
    rw [add_input_val_old _ _ _ (by simp [add_input]), add_input_val_new]

/-- Witness for C10: wires holding `2⁶⁴` and `2¹²⁸`, both of whose canonical
values are at least 659 yet whose shared low limb 0 drives the gadget into
the substitution branch. -/
theorem c10_witness :
    lowLimb (Composer.val cs10W 3) = lowLimb (Composer.val cs10W 4) ∧
    659 ≤ Composer.val cs10W 3 ∧ 659 ≤ Composer.val cs10W 4 ∧
    lowLimb (Composer.val cs10W 3) < 659 ∧
    (((s_box_and_constraints cs10W sboxW bsrW 3 2 false 1 2).2.2.1 =
      (s_box_and_constraints cs10W sboxW bsrW 4 2 false 1 2).2.2.1 ∧
     (s_box_and_constraints cs10W sboxW bsrW 3 2 false 1 2).2.2.2.1 =
      (s_box_and_constraints cs10W sboxW bsrW 4 2 false 1 2).2.2.2.1 ∧
     (s_box_and_constraints cs10W sboxW bsrW 3 2 false 1 2).2.2.2.2 =
      (s_box_and_constraints cs10W sboxW bsrW 4 2 false 1 2).2.2.2.2) ∧
    (lowLimb (Composer.val cs10W 3) < 659 →
      (s_box_and_constraints cs10W sboxW bsrW 3 2 false 1 2).1.val
        (s_box_and_constraints cs10W sboxW bsrW 3 2 false 1 2).2.1 =
        sboxW (lowLimb (Composer.val cs10W 3)) % p ∧
      (s_box_and_constraints cs10W sboxW bsrW 3 2 false 1 2).2.2.2.1 = true)) :=
  ⟨by decide, by decide, by decide, by decide,
    c10_low_limb_only cs10W sboxW bsrW 3 4 2 false 1 2 (by decide)⟩
